import Mathlib

/-!
# slowcat: a rate-throttled `cat`

A shallow embedding of `slowcat.c` (one C source file: `my_usleep`,
`write_all`, `slowcat`, `main`) together with theorems about it.

Conventions of the embedding.

* C `int` values are `Int`; where a result can leave the 32-bit range
  (`total += n`, `total * 8`, `bps *= 1024`, the value stored by `%d`,
  `secs = now - start`, the result of `write` stored in `int n`) it goes
  through `wrapInt`, the two's-complement reading of signed overflow and
  of narrowing.
  `batch_total += n` cannot overflow: at the head of every iteration
  `batch_total` is below the bytes-per-second figure (at most `2^28`) and a
  read delivers at most that many bytes; it is a plain sum.
* `time_t` is `Int` (64 bits, never near its limits).
* The operating system is an oracle: the results of the successive `read`
  calls, of the successive `write` calls and of the successive `time` calls
  are three lists, consumed from the front.  A list that runs out means that
  the call never returns (`blocked`).
* Text that goes to `stderr` and the sleeps are recorded in a log of
  `Effect`s; the bytes accepted by the output descriptor are a list.
-/

namespace Slowcat

/-! ## Machine integers -/

/-- The C `int` holding the mathematical value `x` after two's-complement
wrap-around to 32 bits. -/
def wrapInt (x : Int) : Int := (x + 2147483648) % 4294967296 - 2147483648

/-- Conversion of an integer to `size_t` (64 bits, unsigned). -/
def toSizeT (x : Int) : Nat := (x % 18446744073709551616).toNat

/-- Conversion of an integer to `unsigned int` (the parameter of `sleep`). -/
def toUnsigned (x : Int) : Nat := (x % 4294967296).toNat

/-! ## The operating system as an oracle -/

/-- One byte of data. -/
abbrev Byte := Nat

/-- The `errno` values the program tells apart. -/
inductive Errno
  | EINTR
  | EAGAIN
  | other
  deriving DecidableEq, Repr

/-- Result of one `read` or `write` system call as chosen by the
environment: `ret k` is a success in which the kernel is ready to transfer
`k` bytes (the call transfers `k` bytes bounded by what was asked for and by
what is there), `fail e` is a return of `-1` with `errno = e`. -/
inductive Sys
  | ret (k : Nat)
  | fail (e : Errno)
  deriving DecidableEq, Repr

/-- The test `errno == EINTR || errno == EAGAIN`. -/
def transient (e : Errno) : Bool := e = Errno.EINTR || e = Errno.EAGAIN

/-- What the program does besides writing to the output descriptor. -/
inductive Effect
  /-- The line `wrote %d bytes` of verbose mode. -/
  | wrote (n : Int)
  /-- A call `sleep (s)`. -/
  | sleep (s : Nat)
  /-- A call `my_usleep (u)`, which is `select` with a timeout of `u` microseconds. -/
  | usleep (u : Nat)
  deriving DecidableEq, Repr

/-! ## `write_all` -/

/-- How a call of `write_all` ends. -/
inductive Flushed
  /-- The loop ended with `count == 0`: the sink holds `out`, `rest` are the
  results of the `write` calls still to come. -/
  | returned (out : List Byte) (rest : List Sys)
  /-- A write failed with another error: `perror`, `exit (1)`. -/
  | exited (out : List Byte)
  /-- No further `write` result: the call never returns. -/
  | blocked (out : List Byte)
  deriving DecidableEq, Repr

/-- The function `write_all (fd, buf, count)`.  The descriptor is the pair of the
results `ws` of the coming `write` calls and the bytes `out` it has accepted so
far; `errno` is the value of `errno`, which a failed call sets and a successful
one leaves alone; `buf` is the memory from the pointer `buf` on.  A successful
`write` of `count` bytes makes the sink accept `sent = min k count` of them and
returns `sent`, which line 49 stores in the `int n`: the loop goes on with
`n = wrapInt sent`.  When that is negative the test `n < 0` sends the code to
the test of `errno`, although the bytes are in the sink. -/
def write_all : List Sys → Errno → List Byte → List Byte → Nat → Flushed
  | ws, _, out, _, 0 => Flushed.returned out ws
  | [], _, out, _, _ + 1 => Flushed.blocked out
  | Sys.fail e :: ws, _, out, buf, count + 1 =>
      if transient e then write_all ws e out buf (count + 1) else Flushed.exited out
  | Sys.ret k :: ws, errno, out, buf, count + 1 =>
      let sent := min k (count + 1)
      let n := wrapInt sent
      if n < 0 then
        if transient errno then write_all ws errno (out ++ buf.take sent) buf (count + 1)
        else Flushed.exited (out ++ buf.take sent)
      else
        write_all ws errno (out ++ buf.take sent) (buf.drop n.toNat) (count + 1 - n.toNat)

/-! ## The throttle of `slowcat` -/

/-- The body of the wait loop before the clock is read again:
`if (now < batch_start - 1) sleep (now - batch_start - 1); else my_usleep (20000L);`. -/
def waitStep (now batch_start : Int) : Effect :=
  if now < batch_start - 1 then Effect.sleep (toUnsigned (now - batch_start - 1))
  else Effect.usleep 20000

/-- The loop `while (now < batch_start + secs) { ...; now = time (0); }`.  The
argument `clock` holds the coming results of `time`; the result is the final
`now`, the clock readings left and the waits made, or `none` when the clock
readings run out before the loop ends. -/
def waitTick (batch_start secs : Int) :
    List Int → Int → List Effect → Option (Int × List Int × List Effect)
  | [], now, acts => if now < batch_start + secs then none else some (now, [], acts)
  | t :: clock, now, acts =>
      if now < batch_start + secs then
        waitTick batch_start secs clock t (acts ++ [waitStep now batch_start])
      else some (now, t :: clock, acts)

/-! ## `slowcat` -/

/-- Size of `static char buf[100 * 1024]`. -/
def bufCapacity : Nat := 100 * 1024

/-- The state of `slowcat` and of its environment during the copy loop. -/
structure State where
  /-- Contents of the static buffer `buf`. -/
  buf : List Byte
  total : Int
  batch_total : Int
  batch_start : Int
  now : Int
  /-- Content of `in_fd` from the file position on. -/
  input : List Byte
  /-- Bytes accepted by `out_fd`, oldest first. -/
  out : List Byte
  /-- Results of the coming `write` calls. -/
  writes : List Sys
  /-- Results of the coming `time` calls. -/
  clock : List Int
  /-- Diagnostics and sleeps so far. -/
  log : List Effect
  deriving DecidableEq, Repr

/-- How one pass through the loop body, or the whole loop, ends. -/
inductive Ended
  /-- Control is back at the loop head (for the loop: `read` returned 0). -/
  | next (s : State)
  /-- A fatal I/O error: `perror`, `exit (1)`; `out` is what the sink holds. -/
  | exited (out : List Byte)
  /-- A system call that never returns. -/
  | blocked (out : List Byte)
  /-- Undefined behaviour in C: an access outside `buf`, a division by zero. -/
  | fault (out : List Byte)
  deriving DecidableEq, Repr

/-- Lines 103 to 122: the throttle check after a write, with `bps` already in
bytes per second. -/
def throttle (bps : Int) (s : State) : Ended :=
  if s.batch_total ≥ bps then
    if bps = 0 then Ended.fault s.out
    else
      let secs := Int.tdiv s.batch_total bps
      match waitTick s.batch_start secs s.clock s.now [] with
      | none => Ended.blocked s.out
      | some (now, clock, acts) =>
          Ended.next { s with now := now, clock := clock, log := s.log ++ acts,
                              batch_start := now, batch_total := 0 }
  else Ended.next s

/-- Lines 95 to 122: the loop body after a `read` that returned `n > 0` and
stored the first `n` bytes of the input at the start of `buf`.  The count handed
to `write_all` is at most `bufCapacity` here, so that no result of `write` is
negative as an `int` and `write_all` never reads the `errno` it starts with
(`write_all_errno`); it is given `Errno.other`. -/
def body (bps : Int) (verbose_p : Bool) (s : State) (n : Nat) : Ended :=
  if bufCapacity < n then Ended.fault s.out else
  let buf := s.input.take n ++ s.buf.drop n
  let batch_total := s.batch_total + n
  let total := wrapInt (s.total + n)
  if bufCapacity < toSizeT batch_total then Ended.fault s.out else
  match write_all s.writes Errno.other s.out buf (toSizeT batch_total) with
  | Flushed.exited out => Ended.exited out
  | Flushed.blocked out => Ended.blocked out
  | Flushed.returned out writes =>
      let log := if verbose_p then s.log ++ [Effect.wrote batch_total] else s.log
      throttle bps { s with buf := buf, total := total, batch_total := batch_total,
                            input := s.input.drop n, out := out, writes := writes,
                            log := log }

/-- The loop `while ((n = read (in_fd, buf, bufsiz)) != 0)` with `bufsiz = bps`,
by recursion on the results of the coming `read` calls.  A successful `read`
returns `min k (min bufsiz available)` bytes; up to `bufCapacity` bytes that
number is the same as an `int`, and with more the read has left `buf`. -/
def copyLoop (bps : Int) (verbose_p : Bool) : List Sys → State → Ended
  | [], s => Ended.blocked s.out
  | Sys.fail e :: reads, s =>
      if transient e then copyLoop bps verbose_p reads s else Ended.exited s.out
  | Sys.ret k :: reads, s =>
      let n := min k (min (toSizeT bps) s.input.length)
      if n = 0 then Ended.next s
      else
        match body bps verbose_p s n with
        | Ended.next s1 => copyLoop bps verbose_p reads s1
        | e => e

/-- Outcome of comparing `off = (double) rate / (double) (bps * 8)` with `1.0`. -/
inductive Verdict
  | undershot
  | overshot
  /-- Neither line is printed. -/
  | neither
  deriving DecidableEq, Repr

/-- The two comparisons `off < 1.0` and `off > 1.0` of lines 145 to 150, for the
quotient of the integers `rate` and `den`.  Both operands are below `2^53` in
size, so they convert to `double` exactly and the rounded quotient stands to
`1.0` as the exact quotient does.  For `den = 0` the quotient is an infinity
or a NaN. -/
def verdict (rate den : Int) : Verdict :=
  if den = 0 then
    if 0 < rate then Verdict.overshot
    else if rate < 0 then Verdict.undershot
    else Verdict.neither
  else
    let off : ℚ := (rate : ℚ) / (den : ℚ)
    if off < 1 then Verdict.undershot
    else if off > 1 then Verdict.overshot
    else Verdict.neither

/-- The end-of-run report of verbose mode. -/
inductive Report
  /-- The line `wrote %d bytes in one chunk.` -/
  | oneChunk (total : Int)
  /-- The line `actual bits per second: %d (%d bytes in %ds)` and the verdict. -/
  | actual (rate total secs : Int) (v : Verdict)
  deriving DecidableEq, Repr

/-- Line 79, `bps /= 8`: the bytes per second for the bits per second `bps`.
Line 81 makes it the size `bufsiz` asked of every `read`. -/
def bytesPerSecond (bps : Int) : Int := Int.tdiv bps 8

/-- Lines 132 to 150, with `bps` already in bytes per second. -/
def report (bps total secs : Int) : Report :=
  if secs = 0 then Report.oneChunk total
  else
    let rate := wrapInt (Int.tdiv (wrapInt (total * 8)) secs)
    Report.actual rate total secs (verdict rate (wrapInt (bps * 8)))

/-- The report that `slowcat (in_fd, out_fd, bps)` makes for the total `total`
after `secs` seconds: line 79 turns the argument into bytes per second, lines
132 to 150 report. -/
def slowcatReport (bps total secs : Int) : Report :=
  report (bytesPerSecond bps) total secs

/-- How a run of `slowcat` ends. -/
inductive Finished
  /-- The function returned. -/
  | done (out : List Byte) (total batch_total : Int) (log : List Effect)
      (summary : Option Report)
  | exited (out : List Byte)
  | blocked (out : List Byte)
  | fault (out : List Byte)
  deriving DecidableEq, Repr

/-- The function `slowcat (in_fd, out_fd, bps)`: `input` is the content of
`in_fd` from its position on, `reads`, `writes` and `clock` are the results of
the coming `read`, `write` and `time` calls. -/
def slowcat (bps : Int) (verbose_p : Bool) (input : List Byte)
    (reads writes : List Sys) (clock : List Int) : Finished :=
  match clock with
  | [] => Finished.blocked []
  | start :: clock =>
      let bps := bytesPerSecond bps
      match copyLoop bps verbose_p reads
          { buf := List.replicate bufCapacity 0, total := 0, batch_total := 0,
            batch_start := start, now := start, input := input, out := [],
            writes := writes, clock := clock, log := [] } with
      | Ended.exited out => Finished.exited out
      | Ended.blocked out => Finished.blocked out
      | Ended.fault out => Finished.fault out
      | Ended.next s =>
          if verbose_p then
            match s.clock with
            | [] => Finished.blocked s.out
            | now :: _ =>
                Finished.done s.out s.total s.batch_total s.log
                  (some (report bps s.total (wrapInt (now - start))))
          else Finished.done s.out s.total s.batch_total s.log none

/-! ## `main` -/

/-- The C function `isspace` in the C locale. -/
def isspace (c : Char) : Bool :=
  c.toNat = 32 || c.toNat = 9 || c.toNat = 10 || c.toNat = 11 || c.toNat = 12 || c.toNat = 13

/-- Value of a run of decimal digits, most significant first. -/
def digitsValue (ds : List Char) : Nat :=
  ds.foldl (fun acc c => acc * 10 + (c.toNat - 48)) 0

/-- Result of the conversion `%d` at the start of a scan. -/
inductive Conv
  /-- The input ended before a conversion (`sscanf` returns `EOF`). -/
  | eof
  /-- No integer at the front (`sscanf` returns 0). -/
  | nomatch
  /-- An integer was read and stored as the `int` `v`; `rest` follows it. -/
  | got (v : Int) (rest : List Char)
  deriving DecidableEq, Repr

/-- The conversion `%d` of `sscanf`: white space is skipped, then an optional
sign and a nonempty run of decimal digits are read.  The value goes through
`wrapInt` into the `int`. -/
def conv_d (s : List Char) : Conv :=
  match s.dropWhile isspace with
  | [] => Conv.eof
  | c :: t =>
      let neg := decide (c = '-')
      let num := if c = '-' ∨ c = '+' then t else c :: t
      let ds := num.takeWhile Char.isDigit
      if ds = [] then Conv.nomatch
      else
        let v : Int := digitsValue ds
        Conv.got (wrapInt (if neg then -v else v)) (num.dropWhile Char.isDigit)

/-- The calls `sscanf (s, "%d%c", &x, &c)` (`lit = none`) and
`sscanf (s, "%dk%c", &x, &c)`, `sscanf (s, "%dK%c", &x, &c)` (`lit = some l`):
the value returned, that is the number of conversions stored or `-1` for `EOF`,
and the value of `x` after the call (`x` keeps its old value when `%d` fails).
A literal of the format that does not match ends the scan; the count of the
conversions stored before it is returned. -/
def sscanf_d_c (lit : Option Char) (s : List Char) (x : Int) : Int × Int :=
  match conv_d s with
  | Conv.eof => (-1, x)
  | Conv.nomatch => (0, x)
  | Conv.got v rest =>
      match lit, rest with
      | none, [] => (1, v)
      | none, _ :: _ => (2, v)
      | some _, [] => (1, v)
      | some l, c :: rest1 =>
          if c = l then (if rest1 = [] then 1 else 2, v) else (1, v)

/-- Lines 183 to 190: the value of `bps` after the rate argument is scanned, or
`none` for `goto USAGE`. -/
def scanRate (arg : List Char) : Option Int :=
  let r1 := sscanf_d_c none arg 0
  if 1 ≠ r1.1 then
    let r2 := sscanf_d_c (some 'k') arg r1.2
    if 1 ≠ r2.1 then
      let r3 := sscanf_d_c (some 'K') arg r2.2
      if 1 ≠ r3.1 then none else some (wrapInt (r3.2 * 1024))
    else some (wrapInt (r2.2 * 1024))
  else some r1.2

/-- Lines 183 to 197: the rate handed on, or `none` for `goto USAGE`. -/
def resolveRate (arg : List Char) : Option Int :=
  match scanRate arg with
  | none => none
  | some bps => if bps < 8 ∨ bps > 1024 * 1024 * 1024 then none else some bps

/-- Line 181: the value of `off`, or `none` for `goto USAGE`. -/
def scanOffset (arg : List Char) : Option Int :=
  let r := sscanf_d_c none arg 0
  if 1 ≠ r.1 then none else some r.2

/-- What `open`, `fstat` and `lseek` find under a file name. -/
structure File where
  /-- The bytes of the file; `st_size` is their number. -/
  content : List Byte
  /-- Whether `fstat` succeeds. -/
  statOk : Bool
  /-- Whether `lseek` succeeds (it then returns the offset asked for). -/
  seekable : Bool
  deriving DecidableEq, Repr

/-- How `main` gets to the call of `slowcat`, or fails to. -/
inductive Setup
  /-- The label `USAGE`: usage message, `exit (1)`. -/
  | usage
  /-- The three calls of `perror` followed by `exit (1)`. -/
  | openFailed
  | fstatFailed
  | seekFailed
  /-- The call `slowcat (fd, fileno (stdout), bps)` with `fd` positioned at `off`:
  `input` is the content of the file from `off` on. -/
  | copy (verbose_p : Bool) (bps off : Int) (input : List Byte)
  deriving DecidableEq, Repr

/-- Lines 166 to 171: the option `-v`. -/
def stripVerbose (argv : List (List Char)) : Bool × List (List Char) :=
  match argv with
  | prog :: a :: rest => if a = ['-', 'v'] then (true, prog :: rest) else (false, argv)
  | _ => (false, argv)

/-- Lines 162 to 231 of `main`: everything before the call of `slowcat`.
`argv` starts with the program name; `fs` says what `open (file, O_RDONLY)`
finds. -/
def mainSetup (argv : List (List Char)) (fs : List Char → Option File) : Setup :=
  match stripVerbose argv with
  | (verbose_p, [_, rateArg, offArg, file]) =>
      match scanOffset offArg with
      | none => Setup.usage
      | some off =>
          match resolveRate rateArg with
          | none => Setup.usage
          | some bps =>
              match fs file with
              | none => Setup.openFailed
              | some f =>
                  if ¬ f.statOk then Setup.fstatFailed
                  else if off < 0 ∨ off > (f.content.length : Int) then Setup.usage
                  else if ¬ f.seekable then Setup.seekFailed
                  else Setup.copy verbose_p bps off (f.content.drop off.toNat)
  | _ => Setup.usage

/-- How the process ends, with the bytes on standard output. -/
inductive Exit
  /-- The process exits with the status `code`. -/
  | status (code : Nat) (out : List Byte)
  /-- A system call never returns. -/
  | blocked (out : List Byte)
  /-- Undefined behaviour in C. -/
  | fault (out : List Byte)
  deriving DecidableEq, Repr

/-- The function `main`. -/
def main (argv : List (List Char)) (fs : List Char → Option File)
    (reads writes : List Sys) (clock : List Int) : Exit :=
  match mainSetup argv fs with
  | Setup.copy verbose_p bps _ input =>
      match slowcat bps verbose_p input reads writes clock with
      | Finished.done out _ _ _ _ => Exit.status 0 out
      | Finished.exited out => Exit.status 1 out
      | Finished.blocked out => Exit.blocked out
      | Finished.fault out => Exit.fault out
  | _ => Exit.status 1 []

/-- Results of system calls that are not transient failures. -/
def lasting : Sys → Bool
  | Sys.ret _ => true
  | Sys.fail e => !transient e

/-- Number of successful calls among the results `ws`. -/
def successes : List Sys → Nat
  | [] => 0
  | Sys.ret _ :: ws => successes ws + 1
  | Sys.fail _ :: ws => successes ws

/-- Decimal digit as a character. -/
def digitChar (d : Nat) : Char := Char.ofNat (48 + d)

/-- The decimal numeral of a natural number, without leading zeros. -/
def numeral (n : Nat) : List Char :=
  if n = 0 then ['0'] else (Nat.digits 10 n).reverse.map digitChar

/-- The decimal numeral of an integer, with `-` for a negative one. -/
def decimal (z : Int) : List Char :=
  if z < 0 then '-' :: numeral z.natAbs else numeral z.natAbs

/-! ## Auxiliary definitions of the proofs -/

/-- The outcome with the transient failures taken out of the write results
still to come. -/
def Ended.settle : Ended → Ended
  | Ended.next s => Ended.next { s with writes := s.writes.filter lasting }
  | e => e

/-- The same for `write_all`. -/
def Flushed.settle : Flushed → Flushed
  | Flushed.returned out rest => Flushed.returned out (rest.filter lasting)
  | f => f

/-- What follows a numeral in an argument does not start with a digit. -/
def noDigitAhead : List Char → Bool
  | [] => true
  | c :: _ => !c.isDigit

/-! # Theorems -/

/-! ## Machine integers -/

theorem wrapInt_eq (x : Int) (hlo : -2147483648 ≤ x) (hhi : x ≤ 2147483647) : wrapInt x = x := by
  unfold wrapInt
  omega

/-! ## `write_all` flushes the chunk -/

theorem write_all_ret (k : Nat) (ws : List Sys) (errno : Errno) (out buf : List Byte)
    (count : Nat) (hc : count + 1 ≤ 2147483647) :
    write_all (Sys.ret k :: ws) errno out buf (count + 1)
      = write_all ws errno (out ++ buf.take (min k (count + 1))) (buf.drop (min k (count + 1)))
          (count + 1 - min k (count + 1)) := by
  have hw : wrapInt ((min k (count + 1) : Nat) : Int) = ((min k (count + 1) : Nat) : Int) :=
    wrapInt_eq _ (by omega) (by omega)
  simp only [write_all, hw]
  rw [if_neg (by omega), Int.toNat_ofNat]

theorem write_all_errno (ws : List Sys) :
    ∀ (e1 e2 : Errno) (out buf : List Byte) (count : Nat), count ≤ 2147483647 →
      write_all ws e1 out buf count = write_all ws e2 out buf count := by
  induction ws with
  | nil => intro e1 e2 out buf count _; cases count <;> simp only [write_all]
  | cons w ws ih =>
      intro e1 e2 out buf count hc
      cases count with
      | zero => simp only [write_all]
      | succ c =>
          cases w with
          | fail e => simp only [write_all]
          | ret k =>
              rw [write_all_ret _ _ _ _ _ _ hc, write_all_ret _ _ _ _ _ _ hc]
              exact ih _ _ _ _ _ (by omega)

theorem write_all_returned (ws : List Sys) :
    ∀ (errno : Errno) (out buf : List Byte) (count : Nat) (out1 : List Byte) (rest : List Sys),
      count ≤ 2147483647 →
      write_all ws errno out buf count = Flushed.returned out1 rest →
      out1 = out ++ buf.take count ∧
        ∃ used, ws = used ++ rest ∧
          ((∀ k, Sys.ret k ∈ ws → 1 ≤ k) → successes used ≤ count) := by
  induction ws with
  | nil =>
      intro errno out buf count out1 rest _ h
      cases count with
      | zero =>
          simp only [write_all, Flushed.returned.injEq] at h
          obtain ⟨rfl, rfl⟩ := h
          exact ⟨by simp, [], rfl, fun _ => by simp [successes]⟩
      | succ c => simp [write_all] at h
  | cons w ws ih =>
      intro errno out buf count out1 rest hc h
      cases count with
      | zero =>
          simp only [write_all, Flushed.returned.injEq] at h
          obtain ⟨rfl, rfl⟩ := h
          exact ⟨by simp, [], rfl, fun _ => by simp [successes]⟩
      | succ c =>
          cases w with
          | fail e =>
              simp only [write_all] at h
              split at h
              · obtain ⟨h1, used, h2, h3⟩ := ih e out buf (c + 1) out1 rest hc h
                refine ⟨h1, Sys.fail e :: used, by simp [h2], fun hk => ?_⟩
                simpa [successes] using h3 (fun k hm => hk k (List.mem_cons_of_mem _ hm))
              · simp at h
          | ret k =>
              rw [write_all_ret _ _ _ _ _ _ hc] at h
              obtain ⟨h1, used, h2, h3⟩ := ih _ _ _ _ out1 rest (by omega) h
              refine ⟨?_, Sys.ret k :: used, by simp [h2], fun hk => ?_⟩
              · rw [h1, List.append_assoc, ← List.take_add]
                congr 2
                omega
              · have hk1 : 1 ≤ k := hk k (List.mem_cons_self _ _)
                have := h3 (fun k hm => hk k (List.mem_cons_of_mem _ hm))
                simp only [successes]
                omega

theorem waitTick_some (batch_start secs : Int) (clock : List Int) :
    ∀ (now : Int) (acts : List Effect) (now1 : Int) (clock1 : List Int) (acts1 : List Effect),
      waitTick batch_start secs clock now acts = some (now1, clock1, acts1) →
      batch_start + secs ≤ now1 ∧
        ∃ waited, now :: clock = waited ++ now1 :: clock1 ∧
          ∀ t ∈ waited, t < batch_start + secs := by
  induction clock with
  | nil =>
      intro now acts now1 clock1 acts1 h
      simp only [waitTick] at h
      split at h
      · simp at h
      · simp only [Option.some.injEq, Prod.mk.injEq] at h
        obtain ⟨rfl, rfl, -⟩ := h
        exact ⟨by omega, [], rfl, by simp⟩
  | cons t clock ih =>
      intro now acts now1 clock1 acts1 h
      simp only [waitTick] at h
      split at h
      · obtain ⟨h1, waited, h2, h3⟩ := ih t _ now1 clock1 acts1 h
        refine ⟨h1, now :: waited, by simp [h2], ?_⟩
        intro u hu
        rcases List.mem_cons.mp hu with rfl | hu
        · assumption
        · exact h3 u hu
      · simp only [Option.some.injEq, Prod.mk.injEq] at h
        obtain ⟨rfl, rfl, -⟩ := h
        exact ⟨by omega, [], rfl, by simp⟩

theorem waitTick_isSome (batch_start secs : Int) (clock : List Int) :
    ∀ (now : Int) (acts : List Effect),
      (∃ t ∈ now :: clock, batch_start + secs ≤ t) →
      ∃ r, waitTick batch_start secs clock now acts = some r := by
  induction clock with
  | nil =>
      intro now acts h
      obtain ⟨t, ht, hle⟩ := h
      have : t = now := by simpa using ht
      subst this
      exact ⟨_, by simp only [waitTick]; rw [if_neg (by omega)]⟩
  | cons t clock ih =>
      intro now acts h
      simp only [waitTick]
      split
      · apply ih
        obtain ⟨u, hu, hle⟩ := h
        rcases List.mem_cons.mp hu with rfl | hu
        · omega
        · exact ⟨u, hu, hle⟩
      · exact ⟨_, rfl⟩

theorem throttle_next (bps : Int) (s s1 : State) (h : throttle bps s = Ended.next s1) :
    (bps ≤ s.batch_total →
      s1.batch_total = 0 ∧ s1.batch_start = s1.now ∧
      s.batch_start + Int.tdiv s.batch_total bps ≤ s1.now ∧
      ∃ waited, s.now :: s.clock = waited ++ s1.now :: s1.clock ∧
        ∀ t ∈ waited, t < s.batch_start + Int.tdiv s.batch_total bps) ∧
    (s.batch_total < bps → s1 = s) ∧
    s1.out = s.out ∧ s1.input = s.input ∧ s1.writes = s.writes := by
  unfold throttle at h
  simp only [ge_iff_le] at h
  by_cases hge : bps ≤ s.batch_total
  · rw [if_pos hge] at h
    by_cases hz : bps = 0
    · simp [hz] at h
    rw [if_neg hz] at h
    generalize hwait : waitTick s.batch_start (Int.tdiv s.batch_total bps) s.clock s.now [] = r at h
    cases r with
    | none => simp at h
    | some r =>
        obtain ⟨now, clock, acts⟩ := r
        obtain ⟨h1, waited, h2, h3⟩ := waitTick_some _ _ _ _ _ _ _ _ hwait
        simp only [Ended.next.injEq] at h
        subst h
        exact ⟨fun _ => ⟨rfl, rfl, h1, waited, h2, h3⟩, fun hlt => by omega, rfl, rfl, rfl⟩
  · rw [if_neg hge] at h
    simp only [Ended.next.injEq] at h
    subst h
    exact ⟨fun h => absurd h hge, fun _ => rfl, rfl, rfl, rfl⟩

theorem throttle_returns (bps : Int) (s : State) (hz : bps ≠ 0)
    (h : bps ≤ s.batch_total →
      ∃ t ∈ s.now :: s.clock, s.batch_start + Int.tdiv s.batch_total bps ≤ t) :
    ∃ s1, throttle bps s = Ended.next s1 := by
  unfold throttle
  simp only [ge_iff_le]
  by_cases hge : bps ≤ s.batch_total
  · rw [if_pos hge, if_neg hz]
    obtain ⟨r, hr⟩ := waitTick_isSome s.batch_start (Int.tdiv s.batch_total bps) s.clock
      s.now [] (h hge)
    obtain ⟨now, clock, acts⟩ := r
    simp only [hr]
    exact ⟨_, rfl⟩
  · rw [if_neg hge]
    exact ⟨_, rfl⟩

/-- C7: batch reset.  For a loop iteration that read `n` bytes and got back to
the loop head in state `s1`: if the batch has reached the bytes per second,
the values held in `now` (the old one, then the clock readings in turn) were
all below `batch_start + batch_total / bps` up to the one that `now` holds at
the end, which is at least that; it is the new `batch_start`, and
`batch_total` is zero.  Otherwise `batch_start` is unchanged and `batch_total`
has grown by `n`.  And the iteration does get back to the loop head when the
write returns and the clock reaches that second. -/
theorem body_batch_reset (bps : Int) (verbose_p : Bool) (s : State) (n : Nat) :
    (∀ s1, body bps verbose_p s n = Ended.next s1 →
      (bps ≤ s.batch_total + n →
        s1.batch_total = 0 ∧ s1.batch_start = s1.now ∧
        s.batch_start + Int.tdiv (s.batch_total + n) bps ≤ s1.now ∧
        ∃ waited, s.now :: s.clock = waited ++ s1.now :: s1.clock ∧
          ∀ t ∈ waited, t < s.batch_start + Int.tdiv (s.batch_total + n) bps) ∧
      (s.batch_total + n < bps →
        s1.batch_start = s.batch_start ∧ s1.batch_total = s.batch_total + n ∧
        s1.now = s.now ∧ s1.clock = s.clock)) ∧
    (bps ≠ 0 → n ≤ bufCapacity → toSizeT (s.batch_total + n) ≤ bufCapacity →
      (∃ out rest, write_all s.writes Errno.other s.out (s.input.take n ++ s.buf.drop n)
          (toSizeT (s.batch_total + n)) = Flushed.returned out rest) →
      (bps ≤ s.batch_total + n →
        ∃ t ∈ s.now :: s.clock, s.batch_start + Int.tdiv (s.batch_total + n) bps ≤ t) →
      ∃ s1, body bps verbose_p s n = Ended.next s1) := by
  constructor
  · intro s1 h
    unfold body at h
    by_cases hn : bufCapacity < n
    · simp [hn] at h
    rw [if_neg hn] at h
    simp only at h
    by_cases hbt : bufCapacity < toSizeT (s.batch_total + n)
    · simp [hbt] at h
    rw [if_neg hbt] at h
    generalize write_all s.writes Errno.other s.out (s.input.take n ++ s.buf.drop n)
      (toSizeT (s.batch_total + n)) = r at h
    cases r with
    | exited out => simp at h
    | blocked out => simp at h
    | returned out writes =>
        simp only at h
        obtain ⟨h1, h2, -⟩ := throttle_next bps _ _ h
        refine ⟨fun hge => h1 hge, fun hlt => ?_⟩
        have := h2 hlt
        subst this
        exact ⟨rfl, rfl, rfl, rfl⟩
  · intro hz hn hbt hw hclock
    obtain ⟨out, rest, hw⟩ := hw
    unfold body
    rw [if_neg (by omega)]
    simp only
    rw [if_neg (by omega), hw]
    simp only
    exact throttle_returns bps
      { s with buf := s.input.take n ++ s.buf.drop n, total := wrapInt (s.total + n),
               batch_total := s.batch_total + n, input := s.input.drop n, out := out,
               writes := rest,
               log := if verbose_p then s.log ++ [Effect.wrote (s.batch_total + n)] else s.log }
      hz hclock

theorem body_batch_reset_witness :
    body 4 false
        { buf := [0, 0, 0, 0], total := 0, batch_total := 0, batch_start := 10, now := 10,
          input := [1, 2, 3, 4, 5], out := [], writes := [Sys.ret 4], clock := [10, 11, 12],
          log := [] } 4
      = Ended.next
        { buf := [1, 2, 3, 4], total := 4, batch_total := 0, batch_start := 11, now := 11,
          input := [5], out := [1, 2, 3, 4], writes := [], clock := [12],
          log := [Effect.usleep 20000, Effect.usleep 20000] } ∧
    (10 : Int) + Int.tdiv (0 + (4 : Nat)) 4 ≤ 11 :=
  ⟨by decide,
    (((body_batch_reset 4 false
        { buf := [0, 0, 0, 0], total := 0, batch_total := 0, batch_start := 10, now := 10,
          input := [1, 2, 3, 4, 5], out := [], writes := [Sys.ret 4], clock := [10, 11, 12],
          log := [] } 4).1
        { buf := [1, 2, 3, 4], total := 4, batch_total := 0, batch_start := 11, now := 11,
          input := [5], out := [1, 2, 3, 4], writes := [], clock := [12],
          log := [Effect.usleep 20000, Effect.usleep 20000] } (by decide)).1 (by decide)).2.2.1⟩

/-! ## Transient failures -/

theorem write_all_filter (ws : List Sys) :
    ∀ (e1 e2 : Errno) (out buf : List Byte) (count : Nat), count ≤ 2147483647 →
      write_all (ws.filter lasting) e1 out buf count
        = (write_all ws e2 out buf count).settle := by
  induction ws with
  | nil =>
      intro e1 e2 out buf count _
      cases count <;> simp [write_all, Flushed.settle]
  | cons w ws ih =>
      intro e1 e2 out buf count hc
      cases count with
      | zero => simp [write_all, Flushed.settle]
      | succ c =>
          cases w with
          | ret k =>
              simp only [List.filter, lasting]
              rw [write_all_ret _ _ _ _ _ _ hc, write_all_ret _ _ _ _ _ _ hc]
              exact ih _ _ _ _ _ (by omega)
          | fail e =>
              by_cases ht : transient e = true
              · simp only [List.filter, lasting, ht, Bool.not_true, write_all, if_true]
                exact ih _ _ _ _ _ hc
              · simp only [Bool.not_eq_true] at ht
                simp [List.filter, lasting, ht, write_all, Flushed.settle]

theorem throttle_filter (bps : Int) (s : State) :
    throttle bps { s with writes := s.writes.filter lasting } = (throttle bps s).settle := by
  unfold throttle
  simp only [ge_iff_le]
  split
  · split
    · rfl
    · cases waitTick s.batch_start (Int.tdiv s.batch_total bps) s.clock s.now [] with
      | none => rfl
      | some r => rfl
  · rfl

theorem body_filter (bps : Int) (verbose_p : Bool) (s : State) (n : Nat) :
    body bps verbose_p { s with writes := s.writes.filter lasting } n
      = (body bps verbose_p s n).settle := by
  unfold body
  by_cases hn : bufCapacity < n
  · simp [hn, Ended.settle]
  simp only [if_neg hn]
  by_cases hbt : bufCapacity < toSizeT (s.batch_total + n)
  · simp [hbt, Ended.settle]
  have hsz : toSizeT (s.batch_total + n) ≤ 2147483647 := by
    have : toSizeT (s.batch_total + n) ≤ 102400 := by simpa [bufCapacity] using hbt
    omega
  simp only [if_neg hbt]
  rw [write_all_filter s.writes Errno.other Errno.other _ _ _ hsz]
  cases write_all s.writes Errno.other s.out (s.input.take n ++ s.buf.drop n)
      (toSizeT (s.batch_total + n)) with
  | exited out => rfl
  | blocked out => rfl
  | returned out rest =>
      simp only [Flushed.settle]
      exact throttle_filter bps
        { s with buf := s.input.take n ++ s.buf.drop n, total := wrapInt (s.total + n),
                 batch_total := s.batch_total + n, input := s.input.drop n, out := out,
                 writes := rest,
                 log := if verbose_p then s.log ++ [Effect.wrote (s.batch_total + n)] else s.log }

theorem copyLoop_filter (bps : Int) (verbose_p : Bool) (reads : List Sys) :
    ∀ s : State,
      copyLoop bps verbose_p (reads.filter lasting) { s with writes := s.writes.filter lasting }
        = (copyLoop bps verbose_p reads s).settle := by
  induction reads with
  | nil => intro s; rfl
  | cons r reads ih =>
      intro s
      cases r with
      | fail e =>
          by_cases ht : transient e = true
          · simp only [List.filter, lasting, ht, Bool.not_true, copyLoop, if_true]
            exact ih s
          · simp only [Bool.not_eq_true] at ht
            simp [List.filter, lasting, ht, copyLoop, Ended.settle]
      | ret k =>
          simp only [List.filter, lasting, copyLoop]
          by_cases h0 : min k (min (toSizeT bps) s.input.length) = 0
          · simp only [h0, if_true, Ended.settle]
          · simp only [h0, if_false, body_filter]
            cases body bps verbose_p s (min k (min (toSizeT bps) s.input.length)) with
            | next s1 =>
                simp only [Ended.settle]
                exact ih s1
            | exited out => rfl
            | blocked out => rfl
            | fault out => rfl

theorem slowcat_filter (bps : Int) (verbose_p : Bool) (input : List Byte)
    (reads writes : List Sys) (clock : List Int) :
    slowcat bps verbose_p input (reads.filter lasting) (writes.filter lasting) clock
      = slowcat bps verbose_p input reads writes clock := by
  unfold slowcat
  cases clock with
  | nil => rfl
  | cons start clock =>
      simp only
      have h := copyLoop_filter (bytesPerSecond bps) verbose_p reads
        { buf := List.replicate bufCapacity 0, total := 0, batch_total := 0,
          batch_start := start, now := start, input := input, out := [],
          writes := writes, clock := clock, log := [] }
      simp only at h
      rw [h]
      cases copyLoop (bytesPerSecond bps) verbose_p reads
        { buf := List.replicate bufCapacity 0, total := 0, batch_total := 0,
          batch_start := start, now := start, input := input, out := [],
          writes := writes, clock := clock, log := [] } with
      | next s => rfl
      | exited out => rfl
      | blocked out => rfl
      | fault out => rfl

/-- C5: transient failures are invisible.  Two runs of `slowcat` on the same
rate, input and clock whose read results agree once the transient failures
(`EINTR`, `EAGAIN`) are left out, and whose write results do, end in the same
way: the same bytes on the output, the same `total` and `batch_total`, the same
log and report.  A transient failure of `read` leaves the whole state as it
is, and one of `write` leaves the sink, the buffer position and the count as
they are (`errno` holds its code). -/
theorem slowcat_transient_invisible (bps : Int) (verbose_p : Bool) (input : List Byte)
    (reads reads1 writes writes1 : List Sys) (clock : List Int)
    (hr : reads1.filter lasting = reads.filter lasting)
    (hw : writes1.filter lasting = writes.filter lasting) :
    slowcat bps verbose_p input reads1 writes1 clock
        = slowcat bps verbose_p input reads writes clock ∧
    (∀ e s, transient e = true →
        copyLoop (bytesPerSecond bps) verbose_p (Sys.fail e :: reads) s
          = copyLoop (bytesPerSecond bps) verbose_p reads s) ∧
    (∀ e errno out buf count, transient e = true →
        write_all (Sys.fail e :: writes) errno out buf (count + 1)
          = write_all writes e out buf (count + 1)) := by
  refine ⟨?_, ?_, ?_⟩
  · rw [← slowcat_filter bps verbose_p input reads1 writes1, hr, hw, slowcat_filter]
  · intro e s he
    simp [copyLoop, he]
  · intro e errno out buf count he
    simp [write_all, he]

theorem slowcat_transient_invisible_witness :
    slowcat 32 false [1, 2, 3, 4, 5]
        [Sys.fail Errno.EINTR, Sys.ret 4, Sys.fail Errno.EAGAIN, Sys.ret 4, Sys.ret 4]
        [Sys.fail Errno.EAGAIN, Sys.ret 9, Sys.fail Errno.EINTR, Sys.ret 9] [0, 1]
      = slowcat 32 false [1, 2, 3, 4, 5] [Sys.ret 4, Sys.ret 4, Sys.ret 4]
        [Sys.ret 9, Sys.ret 9] [0, 1] :=
  (slowcat_transient_invisible 32 false [1, 2, 3, 4, 5] [Sys.ret 4, Sys.ret 4, Sys.ret 4]
    [Sys.fail Errno.EINTR, Sys.ret 4, Sys.fail Errno.EAGAIN, Sys.ret 4, Sys.ret 4]
    [Sys.ret 9, Sys.ret 9] [Sys.fail Errno.EAGAIN, Sys.ret 9, Sys.fail Errno.EINTR, Sys.ret 9]
    [0, 1] (by decide) (by decide)).1

/-! ## The end-of-run report -/

theorem bytesPerSecond_eq (bps : Int) (h : 0 ≤ bps) : bytesPerSecond bps = bps / 8 := by
  unfold bytesPerSecond
  exact Int.tdiv_eq_ediv h (by decide)

theorem verdict_eq (rate den : Int) (hden : 0 < den) :
    verdict rate den =
      if rate < den then Verdict.undershot
      else if den < rate then Verdict.overshot else Verdict.neither := by
  unfold verdict
  have hq : (0 : ℚ) < (den : ℚ) := by exact_mod_cast hden
  rw [if_neg (by omega)]
  simp only [div_lt_one hq, gt_iff_lt, one_lt_div hq, Int.cast_lt]

theorem tdiv_bounds (a b : Int) (ha : 0 ≤ a) : -a ≤ Int.tdiv a b ∧ Int.tdiv a b ≤ a := by
  have h : (Int.tdiv a b).natAbs ≤ a.natAbs := by
    rw [Int.natAbs_tdiv]
    exact Nat.div_le_self _ _
  omega

theorem slowcatReport_eq (bps total secs : Int) (h8 : 8 ≤ bps) (hmax : bps ≤ 1073741824)
    (h0 : 0 ≤ total) (hfit : total * 8 ≤ 2147483647) (hs : secs ≠ 0) :
    slowcatReport bps total secs =
      Report.actual (Int.tdiv (total * 8) secs) total secs
        (if Int.tdiv (total * 8) secs < bytesPerSecond bps * 8 then Verdict.undershot
         else if bytesPerSecond bps * 8 < Int.tdiv (total * 8) secs then Verdict.overshot
         else Verdict.neither) := by
  have hb := bytesPerSecond_eq bps (by omega)
  have hden : 0 < bytesPerSecond bps * 8 := by rw [hb]; omega
  have hden2 : bytesPerSecond bps * 8 ≤ 1073741824 := by rw [hb]; omega
  have hq := tdiv_bounds (total * 8) secs (by omega)
  unfold slowcatReport report
  rw [if_neg hs]
  simp only
  rw [wrapInt_eq (total * 8) (by omega) hfit, wrapInt_eq (Int.tdiv (total * 8) secs) (by omega) (by omega),
    wrapInt_eq (bytesPerSecond bps * 8) (by omega) (by omega), verdict_eq _ _ hden]

/-- C6, as amended: for every target rate between 8 and 1073741824 bits per
second, every total of at most 268435455 bytes (so that `total * 8` fits the
`int`) and every nonzero count of elapsed seconds, the rate reported is
`total * 8 / secs` (C division) and the report says overshot exactly when that
rate is above the target rounded down to whole bytes per second
(`bps / 8 * 8`), undershot exactly when it is below it, and neither when the
two are equal. -/
theorem slowcatReport_against_rounded_target (bps total secs : Int) (h8 : 8 ≤ bps)
    (hmax : bps ≤ 1073741824) (h0 : 0 ≤ total) (hfit : total * 8 ≤ 2147483647)
    (hs : secs ≠ 0) :
    ∃ v, slowcatReport bps total secs
          = Report.actual (Int.tdiv (total * 8) secs) total secs v ∧
      bytesPerSecond bps * 8 = bps / 8 * 8 ∧
      (v = Verdict.overshot ↔ bps / 8 * 8 < Int.tdiv (total * 8) secs) ∧
      (v = Verdict.undershot ↔ Int.tdiv (total * 8) secs < bps / 8 * 8) ∧
      (v = Verdict.neither ↔ Int.tdiv (total * 8) secs = bps / 8 * 8) := by
  have hb := bytesPerSecond_eq bps (by omega)
  refine ⟨_, slowcatReport_eq bps total secs h8 hmax h0 hfit hs, by rw [hb], ?_, ?_, ?_⟩ <;>
    rw [hb] <;> split_ifs <;> simp <;> omega

theorem slowcatReport_against_rounded_target_witness :
    ∃ v, slowcatReport 15 10 8 = Report.actual (Int.tdiv (10 * 8) 8) 10 8 v ∧
      bytesPerSecond 15 * 8 = 15 / 8 * 8 ∧
      (v = Verdict.overshot ↔ 15 / 8 * 8 < Int.tdiv (10 * 8) 8) ∧
      (v = Verdict.undershot ↔ Int.tdiv (10 * 8) 8 < 15 / 8 * 8) ∧
      (v = Verdict.neither ↔ Int.tdiv (10 * 8) 8 = 15 / 8 * 8) :=
  slowcatReport_against_rounded_target 15 10 8 (by decide) (by decide) (by decide) (by decide)
    (by decide)

/-- C6, counterexample: with a target of 15 bits per second, 10 bytes in 10
seconds are reported as 8 bits per second, which is below the target the
caller supplied, and the report says neither undershot nor overshot. -/
theorem slowcatReport_supplied_target_counterexample :
    slowcatReport 15 10 10 = Report.actual 8 10 10 Verdict.neither ∧
      Int.tdiv (10 * 8) 10 = 8 ∧ (8 : Int) < 15 := by
  refine ⟨?_, by decide, by decide⟩
  rw [slowcatReport_eq 15 10 10 (by decide) (by decide) (by decide) (by decide) (by decide)]
  decide

/-! ## Scanning a decimal numeral -/

theorem digitChar_facts (d : Nat) (h : d < 10) :
    (digitChar d).isDigit = true ∧ (digitChar d).toNat - 48 = d ∧
      isspace (digitChar d) = false ∧ digitChar d ≠ '-' ∧ digitChar d ≠ '+' := by
  interval_cases d <;> decide

theorem digitsValue_append (ds : List Char) (c : Char) :
    digitsValue (ds ++ [c]) = digitsValue ds * 10 + (c.toNat - 48) := by
  simp [digitsValue, List.foldl_append]

theorem digitsValue_digits (L : List Nat) (h : ∀ d ∈ L, d < 10) :
    digitsValue (L.reverse.map digitChar) = Nat.ofDigits 10 L := by
  induction L with
  | nil => rfl
  | cons d L ih =>
      have hd := (digitChar_facts d (h d (List.mem_cons_self _ _))).2.1
      rw [List.reverse_cons, List.map_append, List.map_singleton, digitsValue_append,
        ih (fun x hx => h x (List.mem_cons_of_mem _ hx)), hd, Nat.ofDigits_cons]
      omega

theorem numeral_digits (n : Nat) : ∀ c ∈ numeral n, ∃ d, d < 10 ∧ c = digitChar d := by
  intro c hc
  unfold numeral at hc
  split at hc
  · exact ⟨0, by decide, by simpa using hc⟩
  · simp only [List.mem_map, List.mem_reverse] at hc
    obtain ⟨d, hd, rfl⟩ := hc
    exact ⟨d, Nat.digits_lt_base (by decide) hd, rfl⟩

theorem numeral_ne_nil (n : Nat) : numeral n ≠ [] := by
  unfold numeral
  split
  · simp
  · rename_i h
    simp [Nat.digits_ne_nil_iff_ne_zero, h]

theorem digitsValue_numeral (n : Nat) : digitsValue (numeral n) = n := by
  unfold numeral
  split
  · rename_i h
    subst h
    rfl
  · rw [digitsValue_digits _ (fun d hd => Nat.digits_lt_base (by decide) hd), Nat.ofDigits_digits]

theorem takeWhile_digits (ds rest : List Char) (h : ∀ c ∈ ds, c.isDigit = true)
    (hr : noDigitAhead rest = true) :
    (ds ++ rest).takeWhile Char.isDigit = ds ∧ (ds ++ rest).dropWhile Char.isDigit = rest := by
  induction ds with
  | nil =>
      cases rest with
      | nil => simp
      | cons c t =>
          have : c.isDigit = false := by simpa [noDigitAhead] using hr
          simp [List.takeWhile, List.dropWhile, this]
  | cons d ds ih =>
      have hd : d.isDigit = true := h d (List.mem_cons_self _ _)
      obtain ⟨h1, h2⟩ := ih (fun c hc => h c (List.mem_cons_of_mem _ hc))
      simp [List.takeWhile, List.dropWhile, hd, h1, h2]

theorem conv_d_minus (t : List Char) :
    conv_d ('-' :: t) =
      if t.takeWhile Char.isDigit = [] then Conv.nomatch
      else Conv.got (wrapInt (-(digitsValue (t.takeWhile Char.isDigit) : Int)))
        (t.dropWhile Char.isDigit) := by
  have hsp : isspace '-' = false := by decide
  unfold conv_d
  rw [List.dropWhile_cons, hsp]
  simp

theorem conv_d_unsigned (c : Char) (t : List Char) (hsp : isspace c = false)
    (hminus : c ≠ '-') (hplus : c ≠ '+') :
    conv_d (c :: t) =
      if (c :: t).takeWhile Char.isDigit = [] then Conv.nomatch
      else Conv.got (wrapInt (digitsValue ((c :: t).takeWhile Char.isDigit) : Int))
        ((c :: t).dropWhile Char.isDigit) := by
  unfold conv_d
  rw [List.dropWhile_cons, hsp]
  simp [hminus, hplus]

theorem conv_d_decimal (z : Int) (rest : List Char) (hlo : -2147483648 ≤ z)
    (hhi : z ≤ 2147483647) (hr : noDigitAhead rest = true) :
    conv_d (decimal z ++ rest) = Conv.got z rest := by
  have hall : ∀ c ∈ numeral z.natAbs, c.isDigit = true := by
    intro c hc
    obtain ⟨d, hd, rfl⟩ := numeral_digits _ c hc
    exact (digitChar_facts d hd).1
  obtain ⟨h1, h2⟩ := takeWhile_digits (numeral z.natAbs) rest hall hr
  have hne := numeral_ne_nil z.natAbs
  have hv := digitsValue_numeral z.natAbs
  unfold decimal
  by_cases hz : z < 0
  · rw [if_pos hz, List.cons_append, conv_d_minus, h1, h2, if_neg hne, hv,
      wrapInt_eq _ (by omega) (by omega)]
    congr 1
    omega
  · obtain ⟨c, t, hct⟩ := List.exists_cons_of_ne_nil hne
    obtain ⟨d, hd, hcd⟩ := numeral_digits z.natAbs c (by rw [hct]; exact List.mem_cons_self _ _)
    obtain ⟨-, -, hsp, hminus, hplus⟩ := digitChar_facts d hd
    rw [← hcd] at hsp hminus hplus
    have hshape : numeral z.natAbs ++ rest = c :: (t ++ rest) := by rw [hct]; rfl
    rw [if_neg hz, hshape, conv_d_unsigned c _ hsp hminus hplus, ← hshape, h1, h2, if_neg hne,
      hv, wrapInt_eq _ (by omega) (by omega)]
    congr 1
    omega

theorem scanOffset_decimal (z : Int) (hlo : -2147483648 ≤ z) (hhi : z ≤ 2147483647) :
    scanOffset (decimal z) = some z := by
  have h := conv_d_decimal z [] hlo hhi rfl
  rw [List.append_nil] at h
  simp [scanOffset, sscanf_d_c, h]

/-! ## The arguments of `main` -/

theorem scanRate_decimal (n : Int) (hlo : -2147483648 ≤ n) (hhi : n ≤ 2147483647) :
    scanRate (decimal n) = some n := by
  have h := conv_d_decimal n [] hlo hhi rfl
  rw [List.append_nil] at h
  simp [scanRate, sscanf_d_c, h]

theorem scanRate_followed (n : Int) (c : Char) (rest : List Char) (hlo : -2147483648 ≤ n)
    (hhi : n ≤ 2147483647) (hc : c.isDigit = false) :
    scanRate (decimal n ++ c :: rest) = some (wrapInt (n * 1024)) := by
  have h := conv_d_decimal n (c :: rest) hlo hhi (by simp [noDigitAhead, hc])
  unfold scanRate sscanf_d_c
  rw [h]
  by_cases hk : c = 'k'
  · subst hk
    by_cases hrest : rest = []
    · simp [hrest]
    · simp [hrest]
  · simp [hk]

theorem resolveRate_dash_v : resolveRate ['-', 'v'] = none := by decide

/-- The offset check inside the range of `int`.  With a rate argument that `main`
accepts and a file that opens, stats and seeks, for every content of the file and
every offset argument that is the decimal numeral of an integer in the range of
`int`: `main` calls `slowcat` on the file positioned at the offset exactly when
`0 <= offset <= file size`, and goes to `USAGE` otherwise. -/
theorem mainSetup_offset_within_int (off : Int) (hlo : -2147483648 ≤ off)
    (hhi : off ≤ 2147483647) (v : Bool) (prog rateArg file : List Char)
    (fs : List Char → Option File) (f : File) (bps : Int)
    (hrate : resolveRate rateArg = some bps) (hopen : fs file = some f)
    (hstat : f.statOk = true) (hseek : f.seekable = true) :
    mainSetup (prog :: (if v then [['-', 'v']] else []) ++ [rateArg, decimal off, file]) fs
      = if 0 ≤ off ∧ off ≤ (f.content.length : Int)
        then Setup.copy v bps off (f.content.drop off.toNat) else Setup.usage := by
  have hne : rateArg ≠ ['-', 'v'] := by
    intro h
    rw [h, resolveRate_dash_v] at hrate
    exact Option.noConfusion hrate
  have hoff := scanOffset_decimal off hlo hhi
  by_cases hin : 0 ≤ off ∧ off ≤ (f.content.length : Int)
  · have hout : ¬ (off < 0 ∨ off > (f.content.length : Int)) := by omega
    rw [if_pos hin]
    cases v <;> simp [mainSetup, stripVerbose, hne, hoff, hrate, hopen, hstat, hseek, hout]
  · have hout : off < 0 ∨ off > (f.content.length : Int) := by omega
    rw [if_neg hin]
    cases v <;> simp [mainSetup, stripVerbose, hne, hoff, hrate, hopen, hstat, hseek, hout]

/-- C4, at failing inputs: offset arguments outside the range of the `int off`
that line 181 scans them into.  On a file of 3 bytes the offsets 4294967296 and
-4294967296, both outside `0 <= offset <= 3`, become 0 and `main` starts the
copy from the start of the file; the offset 3000000000 becomes -1294967296,
which line 217 refuses whatever the size of the file. -/
theorem main_offset_wraps_into_range :
    mainSetup [['s'], ['6', '4'], ['4', '2', '9', '4', '9', '6', '7', '2', '9', '6'], ['f']]
        (fun _ => some ⟨[1, 2, 3], true, true⟩)
      = Setup.copy false 64 0 [1, 2, 3] ∧
    mainSetup [['s'], ['6', '4'], ['-', '4', '2', '9', '4', '9', '6', '7', '2', '9', '6'], ['f']]
        (fun _ => some ⟨[1, 2, 3], true, true⟩)
      = Setup.copy false 64 0 [1, 2, 3] ∧
    scanOffset ['3', '0', '0', '0', '0', '0', '0', '0', '0', '0'] = some (-1294967296) ∧
    ¬ ((4294967296 : Int) ≤ 3) ∧ ¬ ((0 : Int) ≤ -4294967296) := by
  decide

/-- C2, at the failing input `4194305k`: the argument resolves to
`4194305 * 1024 = 4294968320`, which is above 1073741824, but the product
wraps around in the `int` to 1024 and `main` starts the copy at 1024 bits per
second. -/
theorem main_rate_wraps_into_range :
    mainSetup [['s'], ['4', '1', '9', '4', '3', '0', '5', 'k'], ['0'], ['f']]
        (fun _ => some ⟨[1, 2, 3], true, true⟩)
      = Setup.copy false 1024 0 [1, 2, 3] ∧
    (1073741824 : Int) < 4194305 * 1024 := by
  decide

/-- C3, at the failing inputs `64x` and `64kk`: neither is an integer with at most
one `k` or `K` after it, and `main` starts the copy at 65536 bits per second
for both. -/
theorem main_accepts_malformed_rate :
    mainSetup [['s'], ['6', '4', 'x'], ['0'], ['f']] (fun _ => some ⟨[1, 2, 3], true, true⟩)
      = Setup.copy false 65536 0 [1, 2, 3] ∧
    mainSetup [['s'], ['6', '4', 'k', 'k'], ['0'], ['f']] (fun _ => some ⟨[1, 2, 3], true, true⟩)
      = Setup.copy false 65536 0 [1, 2, 3] := by
  decide

/-- C10, at the failing input 8000000 bits per second: `main` accepts the rate
and every `read` of `slowcat` asks for 1000000 bytes, more than the 102400
bytes of `buf`. -/
theorem read_request_exceeds_buffer :
    resolveRate ['8', '0', '0', '0', '0', '0', '0'] = some 8000000 ∧
    toSizeT (bytesPerSecond 8000000) = 1000000 ∧ bufCapacity < 1000000 := by
  decide

/-- C1, at a failing input: 32 bits per second, the input bytes 1 to 5, reads
that deliver 3 bytes, then 1, then 1.  The second write sends the 4 bytes of the
batch from the start of the buffer, so the output holds 8 bytes for 5 of input. -/
theorem slowcat_short_reads_repeat_bytes :
    slowcat 32 false [1, 2, 3, 4, 5] [Sys.ret 3, Sys.ret 1, Sys.ret 1, Sys.ret 1]
        [Sys.ret 9, Sys.ret 9, Sys.ret 9] [0, 1]
      = Finished.done [1, 2, 3, 4, 2, 3, 0, 5] 5 1 [Effect.usleep 20000] none := by
  decide

/-- C8, at a failing input: `batch_start = 100`, one second owed, and a clock
that reads 98 during the wait, so that 3 seconds remain.  The wait taken is
`sleep (4294967293)`, not a sleep of 2 seconds; with the clock at 99, 2 seconds
remain and the wait is the poll of 1/50 second, not a sleep of 1 second. -/
theorem waitStep_ignores_seconds_owed :
    waitStep 98 100 = Effect.sleep 4294967293 ∧
    waitStep 99 100 = Effect.usleep 20000 ∧
    slowcat 8 false [7] [Sys.ret 1, Sys.ret 1] [Sys.ret 1] [100, 98, 101]
      = Finished.done [7] 1 0 [Effect.usleep 20000, Effect.sleep 4294967293] none := by
  decide

/-! ## Copy fidelity when no read is short inside a batch -/

theorem toSizeT_eq (x : Int) (h0 : 0 ≤ x) (h1 : x < 18446744073709551616) :
    toSizeT x = x.toNat := by
  unfold toSizeT
  rw [Int.emod_eq_of_lt h0 h1]

theorem body_from_empty_batch (bps : Int) (verbose_p : Bool) (s s1 : State) (n : Nat)
    (hbt : s.batch_total = 0) (hn : n ≤ s.input.length)
    (hlast : (n : Int) < bps → n = s.input.length)
    (h : body bps verbose_p s n = Ended.next s1) :
    s1.out ++ s1.input = s.out ++ s.input ∧ (s1.batch_total = 0 ∨ s1.input = []) := by
  unfold body at h
  by_cases hcap : bufCapacity < n
  · simp [hcap] at h
  rw [if_neg hcap] at h
  simp only at h
  have hsz : toSizeT (s.batch_total + n) = n := by
    have hc : n ≤ 102400 := by simpa [bufCapacity] using hcap
    rw [hbt, toSizeT_eq _ (by omega) (by omega)]
    simp
  rw [hsz, if_neg hcap] at h
  generalize hw : write_all s.writes Errno.other s.out (s.input.take n ++ s.buf.drop n) n
    = r at h
  cases r with
  | exited out => simp at h
  | blocked out => simp at h
  | returned out rest =>
      simp only at h
      obtain ⟨hout, -⟩ := write_all_returned _ _ _ _ _ _ _
        (by have : n ≤ 102400 := by simpa [bufCapacity] using hcap
            omega) hw
      have htake : (s.input.take n ++ s.buf.drop n).take n = s.input.take n := by
        rw [List.take_append_of_le_length (by simp [hn])]
        simp
      rw [htake] at hout
      obtain ⟨h1, h2, ho, hi, -⟩ := throttle_next bps _ _ h
      simp only at h1 h2 ho hi
      refine ⟨by rw [ho, hi, hout, List.append_assoc, List.take_append_drop], ?_⟩
      by_cases hge : bps ≤ s.batch_total + n
      · exact Or.inl (h1 hge).1
      · right
        rw [hi, hlast (by omega)]
        simp

theorem copyLoop_full_reads (bps : Int) (verbose_p : Bool) (hpos : 1 ≤ bps)
    (hcap : bps ≤ bufCapacity) (reads : List Sys) :
    ∀ s s1 : State, (∀ k, Sys.ret k ∈ reads → toSizeT bps ≤ k) →
      (s.batch_total = 0 ∨ s.input = []) →
      copyLoop bps verbose_p reads s = Ended.next s1 →
      s1.out = s.out ++ s.input := by
  have hB : toSizeT bps = bps.toNat := by
    have hc : bps ≤ 102400 := by simpa [bufCapacity] using hcap
    exact toSizeT_eq bps (by omega) (by omega)
  induction reads with
  | nil => intro s s1 _ _ h; simp [copyLoop] at h
  | cons r reads ih =>
      intro s s1 hfull hinv h
      have hfull1 : ∀ k, Sys.ret k ∈ reads → toSizeT bps ≤ k :=
        fun k hk => hfull k (List.mem_cons_of_mem _ hk)
      cases r with
      | fail e =>
          simp only [copyLoop] at h
          split at h
          · exact ih s s1 hfull1 hinv h
          · simp at h
      | ret k =>
          have hk : toSizeT bps ≤ k := hfull k (List.mem_cons_self _ _)
          rw [hB] at hk
          simp only [copyLoop, hB] at h
          by_cases hempty : s.input = []
          · simp only [hempty, List.length_nil, Nat.min_zero, if_true, Ended.next.injEq] at h
            subst h
            simp [hempty]
          · have hbt : s.batch_total = 0 := hinv.resolve_right hempty
            have hlen : 0 < s.input.length := List.length_pos.mpr hempty
            have hn0 : min k (min bps.toNat s.input.length) ≠ 0 := by omega
            rw [if_neg hn0] at h
            generalize hb : body bps verbose_p s (min k (min bps.toNat s.input.length)) = r at h
            cases r with
            | next s2 =>
                simp only at h
                obtain ⟨hcat, hinv2⟩ := body_from_empty_batch bps verbose_p s s2 _ hbt
                  (by omega) (by omega) hb
                rw [ih s2 s1 hfull1 hinv2 h, hcat]
            | exited out => simp at h
            | blocked out => simp at h
            | fault out => simp at h

/-- Copy fidelity of `slowcat` when every successful `read` is ready to deliver a
full second of data (so that only the last read before the end of the input is
short) and the bytes per second fit the buffer: when `slowcat` returns, the
output is the input. -/
theorem slowcat_copies_full_reads (bps : Int) (verbose_p : Bool) (input : List Byte)
    (reads writes : List Sys) (clock : List Int) (hpos : 1 ≤ bytesPerSecond bps)
    (hcap : bytesPerSecond bps ≤ bufCapacity)
    (hfull : ∀ k, Sys.ret k ∈ reads → toSizeT (bytesPerSecond bps) ≤ k)
    (out : List Byte) (total batch_total : Int) (log : List Effect) (summary : Option Report)
    (h : slowcat bps verbose_p input reads writes clock
      = Finished.done out total batch_total log summary) :
    out = input := by
  unfold slowcat at h
  cases clock with
  | nil => simp at h
  | cons start clock =>
      simp only at h
      generalize hl : copyLoop (bytesPerSecond bps) verbose_p reads _ = r at h
      cases r with
      | next s1 =>
          have hout := copyLoop_full_reads (bytesPerSecond bps) verbose_p hpos hcap reads _ s1
            hfull (Or.inl rfl) hl
          simp only [List.nil_append] at hout
          simp only at h
          split at h
          · split at h
            · simp at h
            · simp only [Finished.done.injEq] at h
              rw [← h.1, hout]
          · simp only [Finished.done.injEq] at h
            rw [← h.1, hout]
      | exited o => simp at h
      | blocked o => simp at h
      | fault o => simp at h

end Slowcat
